import Mathlib

/-!
Hash-chained certificate-checkout ledger (`main.go`).

A shallow embedding of the chain core of `main.go`: the `Block` and
`certificateCheckout` records, `generateHash`, `CreateBlock`, `AddBlock`,
`GenesisBlock`, `NewBlockchain`, `validBlock` and `validateHash`, and of the
identifier computation of the handler `newcertificate`.

Modelling conventions.

* Go `string` values are modelled by Lean `String`s, that is by sequences of
  Unicode scalar values.  Every string the program stores is valid UTF-8
  (clock text, hexadecimal digests, text produced by the JSON decoder), and on
  valid UTF-8 concatenation of byte strings and of scalar sequences agree.
* Go `int` is the 64-bit two's-complement integer of amd64/arm64.  A value is
  an `Int`; `+` is followed by `wrapInt`.
* A method with a pointer receiver returns the updated record.
* A run-time panic is an `Except.error`.
* `crypto/sha256`, `crypto/md5`, `encoding/hex`, `encoding/json`, the `%x`
  verb of `fmt` and the conversion `string(int)` are library or language
  behaviour; they are written out below
  following their documented behaviour so that the model can be evaluated.
-/

namespace Ledger

/-! ## Library behaviour: UTF-8, SHA-256, hexadecimal text -/

/-- UTF-8 bytes of a string, each byte as a natural number below 256. -/
def utf8Bytes (s : String) : List Nat :=
  s.data.flatMap fun c => (String.utf8EncodeChar c).map UInt8.toNat

/-- Round constants of SHA-256 (FIPS 180-4, section 4.2.2). -/
def sha256K : List Nat :=
  [0x428a2f98, 0x71374491, 0xb5c0fbcf, 0xe9b5dba5, 0x3956c25b, 0x59f111f1, 0x923f82a4, 0xab1c5ed5,
   0xd807aa98, 0x12835b01, 0x243185be, 0x550c7dc3, 0x72be5d74, 0x80deb1fe, 0x9bdc06a7, 0xc19bf174,
   0xe49b69c1, 0xefbe4786, 0x0fc19dc6, 0x240ca1cc, 0x2de92c6f, 0x4a7484aa, 0x5cb0a9dc, 0x76f988da,
   0x983e5152, 0xa831c66d, 0xb00327c8, 0xbf597fc7, 0xc6e00bf3, 0xd5a79147, 0x06ca6351, 0x14292967,
   0x27b70a85, 0x2e1b2138, 0x4d2c6dfc, 0x53380d13, 0x650a7354, 0x766a0abb, 0x81c2c92e, 0x92722c85,
   0xa2bfe8a1, 0xa81a664b, 0xc24b8b70, 0xc76c51a3, 0xd192e819, 0xd6990624, 0xf40e3585, 0x106aa070,
   0x19a4c116, 0x1e376c08, 0x2748774c, 0x34b0bcb5, 0x391c0cb3, 0x4ed8aa4a, 0x5b9cca4f, 0x682e6ff3,
   0x748f82ee, 0x78a5636f, 0x84c87814, 0x8cc70208, 0x90befffa, 0xa4506ceb, 0xbef9a3f7, 0xc67178f2]

/-- Eight 32-bit working words of SHA-256. -/
structure ShaState where
  a : Nat
  b : Nat
  c : Nat
  d : Nat
  e : Nat
  f : Nat
  g : Nat
  h : Nat
  deriving DecidableEq, Repr

/-- Initial hash value of SHA-256 (FIPS 180-4, section 5.3.3). -/
def sha256Init : ShaState :=
  ⟨0x6a09e667, 0xbb67ae85, 0x3c6ef372, 0xa54ff53a, 0x510e527f, 0x9b05688c, 0x1f83d9ab, 0x5be0cd19⟩

/-- Addition of 32-bit words. -/
def add32 (x y : Nat) : Nat := (x + y) % 2 ^ 32

/-- Rotation to the right of a 32-bit word. -/
def rotr32 (x n : Nat) : Nat := ((x >>> n) ||| (x <<< (32 - n))) % 2 ^ 32

/-- Bitwise complement of a 32-bit word. -/
def not32 (x : Nat) : Nat := (2 ^ 32 - 1) ^^^ (x % 2 ^ 32)

def bigSigma0 (x : Nat) : Nat := rotr32 x 2 ^^^ rotr32 x 13 ^^^ rotr32 x 22
def bigSigma1 (x : Nat) : Nat := rotr32 x 6 ^^^ rotr32 x 11 ^^^ rotr32 x 25
def smallSigma0 (x : Nat) : Nat := rotr32 x 7 ^^^ rotr32 x 18 ^^^ (x >>> 3)
def smallSigma1 (x : Nat) : Nat := rotr32 x 17 ^^^ rotr32 x 19 ^^^ (x >>> 10)
def shaCh (x y z : Nat) : Nat := (x &&& y) ^^^ (not32 x &&& z)
def shaMaj (x y z : Nat) : Nat := (x &&& y) ^^^ (x &&& z) ^^^ (y &&& z)

/-- Message padding: a 0x80 byte, zero bytes up to 56 modulo 64, then the bit
length as a 64-bit big-endian number. -/
def sha256Pad (msg : List Nat) : List Nat :=
  let bits := 8 * msg.length
  msg ++ [0x80] ++ List.replicate ((119 - msg.length % 64) % 64) 0 ++
    (List.range 8).map fun i => (bits >>> (8 * (7 - i))) % 256

/-- Big-endian 32-bit word number `i` of a block of 64 bytes. -/
def sha256Word (block : List Nat) (i : Nat) : Nat :=
  block.getD (4 * i) 0 * 2 ^ 24 + block.getD (4 * i + 1) 0 * 2 ^ 16 +
    block.getD (4 * i + 2) 0 * 2 ^ 8 + block.getD (4 * i + 3) 0

/-- Message schedule: the 16 words of the block extended to 64 words. -/
def sha256Schedule (block : List Nat) : List Nat :=
  (List.range 48).foldl
    (fun w j =>
      let i := j + 16
      w ++ [add32 (add32 (smallSigma1 (w.getD (i - 2) 0)) (w.getD (i - 7) 0))
              (add32 (smallSigma0 (w.getD (i - 15) 0)) (w.getD (i - 16) 0))])
    ((List.range 16).map (sha256Word block))

/-- One round of the compression function. -/
def sha256Round (s : ShaState) (kw : Nat × Nat) : ShaState :=
  let t1 := add32 (add32 (add32 s.h (bigSigma1 s.e)) (add32 (shaCh s.e s.f s.g) kw.1)) kw.2
  let t2 := add32 (bigSigma0 s.a) (shaMaj s.a s.b s.c)
  ⟨add32 t1 t2, s.a, s.b, s.c, add32 s.d t1, s.e, s.f, s.g⟩

/-- Compression of one block of 64 bytes into the running hash value. -/
def sha256Compress (s : ShaState) (block : List Nat) : ShaState :=
  let r := (sha256K.zip (sha256Schedule block)).foldl sha256Round s
  ⟨add32 s.a r.a, add32 s.b r.b, add32 s.c r.c, add32 s.d r.d,
   add32 s.e r.e, add32 s.f r.f, add32 s.g r.g, add32 s.h r.h⟩

/-- The four bytes of a 32-bit word, most significant first. -/
def wordBytes (w : Nat) : List Nat :=
  [(w >>> 24) % 256, (w >>> 16) % 256, (w >>> 8) % 256, w % 256]

/-- SHA-256 digest (32 bytes) of a byte string: `sha256.New`, `Write`, `Sum(nil)`. -/
def sha256Sum (msg : List Nat) : List Nat :=
  let padded := sha256Pad msg
  let s := (List.range (padded.length / 64)).foldl
    (fun s i => sha256Compress s ((padded.drop (64 * i)).take 64)) sha256Init
  wordBytes s.a ++ wordBytes s.b ++ wordBytes s.c ++ wordBytes s.d ++
    wordBytes s.e ++ wordBytes s.f ++ wordBytes s.g ++ wordBytes s.h

/-- Lowercase hexadecimal digit of a value below 16. -/
def hexDigit (n : Nat) : Char :=
  if n < 10 then Char.ofNat (48 + n) else Char.ofNat (87 + n)

/-- Lowercase hexadecimal text of a byte string, two digits per byte:
`hex.EncodeToString`. -/
def hexEncodeToString (bytes : List Nat) : String :=
  String.mk (bytes.flatMap fun b => [hexDigit (b / 16), hexDigit (b % 16)])

/-! ## Library behaviour: MD5 and `%x` formatting -/

/-- Sine-derived constants of MD5 (RFC 1321, section 3.4). -/
def md5K : List Nat :=
  [0xd76aa478, 0xe8c7b756, 0x242070db, 0xc1bdceee, 0xf57c0faf, 0x4787c62a, 0xa8304613, 0xfd469501,
   0x698098d8, 0x8b44f7af, 0xffff5bb1, 0x895cd7be, 0x6b901122, 0xfd987193, 0xa679438e, 0x49b40821,
   0xf61e2562, 0xc040b340, 0x265e5a51, 0xe9b6c7aa, 0xd62f105d, 0x02441453, 0xd8a1e681, 0xe7d3fbc8,
   0x21e1cde6, 0xc33707d6, 0xf4d50d87, 0x455a14ed, 0xa9e3e905, 0xfcefa3f8, 0x676f02d9, 0x8d2a4c8a,
   0xfffa3942, 0x8771f681, 0x6d9d6122, 0xfde5380c, 0xa4beea44, 0x4bdecfa9, 0xf6bb4b60, 0xbebfbc70,
   0x289b7ec6, 0xeaa127fa, 0xd4ef3085, 0x04881d05, 0xd9d4d039, 0xe6db99e5, 0x1fa27cf8, 0xc4ac5665,
   0xf4292244, 0x432aff97, 0xab9423a7, 0xfc93a039, 0x655b59c3, 0x8f0ccc92, 0xffeff47d, 0x85845dd1,
   0x6fa87e4f, 0xfe2ce6e0, 0xa3014314, 0x4e0811a1, 0xf7537e82, 0xbd3af235, 0x2ad7d2bb, 0xeb86d391]

/-- Per-round shift amounts of MD5. -/
def md5Shift : List Nat :=
  [7, 12, 17, 22, 7, 12, 17, 22, 7, 12, 17, 22, 7, 12, 17, 22,
   5, 9, 14, 20, 5, 9, 14, 20, 5, 9, 14, 20, 5, 9, 14, 20,
   4, 11, 16, 23, 4, 11, 16, 23, 4, 11, 16, 23, 4, 11, 16, 23,
   6, 10, 15, 21, 6, 10, 15, 21, 6, 10, 15, 21, 6, 10, 15, 21]

/-- Four 32-bit working words of MD5. -/
structure Md5State where
  a : Nat
  b : Nat
  c : Nat
  d : Nat
  deriving DecidableEq, Repr

/-- Initial state of MD5. -/
def md5Init : Md5State := ⟨0x67452301, 0xefcdab89, 0x98badcfe, 0x10325476⟩

/-- Rotation to the left of a 32-bit word. -/
def rotl32 (x n : Nat) : Nat := ((x <<< n) ||| (x >>> (32 - n))) % 2 ^ 32

/-- Message padding of MD5: a 0x80 byte, zero bytes up to 56 modulo 64, then
the bit length as a 64-bit little-endian number. -/
def md5Pad (msg : List Nat) : List Nat :=
  let bits := 8 * msg.length
  msg ++ [0x80] ++ List.replicate ((119 - msg.length % 64) % 64) 0 ++
    (List.range 8).map fun i => (bits >>> (8 * i)) % 256

/-- Little-endian 32-bit word number `i` of a block of 64 bytes. -/
def md5Word (block : List Nat) (i : Nat) : Nat :=
  block.getD (4 * i) 0 + block.getD (4 * i + 1) 0 * 2 ^ 8 +
    block.getD (4 * i + 2) 0 * 2 ^ 16 + block.getD (4 * i + 3) 0 * 2 ^ 24

/-- One of the 64 steps of the MD5 compression function. -/
def md5Step (block : List Nat) (s : Md5State) (i : Nat) : Md5State :=
  let fg : Nat × Nat :=
    if i < 16 then ((s.b &&& s.c) ||| (not32 s.b &&& s.d), i)
    else if i < 32 then ((s.d &&& s.b) ||| (not32 s.d &&& s.c), (5 * i + 1) % 16)
    else if i < 48 then (s.b ^^^ s.c ^^^ s.d, (3 * i + 5) % 16)
    else (s.c ^^^ (s.b ||| not32 s.d), (7 * i) % 16)
  let f := add32 (add32 fg.1 s.a) (add32 (md5K.getD i 0) (md5Word block fg.2))
  ⟨s.d, add32 s.b (rotl32 f (md5Shift.getD i 0)), s.b, s.c⟩

/-- Compression of one block of 64 bytes into the running MD5 state. -/
def md5Compress (s : Md5State) (block : List Nat) : Md5State :=
  let r := (List.range 64).foldl (md5Step block) s
  ⟨add32 s.a r.a, add32 s.b r.b, add32 s.c r.c, add32 s.d r.d⟩

/-- The four bytes of a 32-bit word, least significant first. -/
def wordBytesLE (w : Nat) : List Nat :=
  [w % 256, (w >>> 8) % 256, (w >>> 16) % 256, (w >>> 24) % 256]

/-- MD5 digest (16 bytes) of a byte string: `md5.New`, `io.WriteString`, `Sum(nil)`. -/
def md5Sum (msg : List Nat) : List Nat :=
  let padded := md5Pad msg
  let s := (List.range (padded.length / 64)).foldl
    (fun s i => md5Compress s ((padded.drop (64 * i)).take 64)) md5Init
  wordBytesLE s.a ++ wordBytesLE s.b ++ wordBytesLE s.c ++ wordBytesLE s.d

/-- Text of `fmt.Sprintf("%x", bytes)` for a byte slice: lowercase
hexadecimal, two digits per byte. -/
def sprintfHex (bytes : List Nat) : String := hexEncodeToString bytes

/-! ## Language and library behaviour: `int`, `string(int)`, `json.Marshal`, the clock -/

/-- Largest value of the 64-bit Go `int`. -/
def maxInt : Int := 2 ^ 63 - 1

/-- Smallest value of the 64-bit Go `int`. -/
def minInt : Int := -(2 ^ 63)

/-- Two's-complement wrap-around of a mathematical integer into the 64-bit `int`. -/
def wrapInt (x : Int) : Int := (x + 2 ^ 63) % 2 ^ 64 - 2 ^ 63

/-- The conversion `string(i)` of an `int`: the one-rune string of the code
point `i`, and the replacement character U+FFFD when `i` is not a valid
Unicode code point (negative, a surrogate, or above U+10FFFF). -/
def runeString (i : Int) : String :=
  if 0 ≤ i ∧ i.toNat.isValidChar then String.singleton (Char.ofNat i.toNat)
  else String.singleton (Char.ofNat 0xFFFD)

/-- Text that `encoding/json` writes for one character inside a string
literal (HTML escaping on, as `json.Marshal` has it; Go 1.22 and later). -/
def jsonEscapeChar (c : Char) : List Char :=
  let n := c.toNat
  if n = 34 ∨ n = 92 then [Char.ofNat 92, c]
  else if n = 8 then [Char.ofNat 92, 'b']
  else if n = 12 then [Char.ofNat 92, 'f']
  else if n = 10 then [Char.ofNat 92, 'n']
  else if n = 13 then [Char.ofNat 92, 'r']
  else if n = 9 then [Char.ofNat 92, 't']
  else if n < 32 ∨ n = 60 ∨ n = 62 ∨ n = 38 then
    [Char.ofNat 92, 'u', '0', '0', hexDigit (n / 16), hexDigit (n % 16)]
  else if n = 0x2028 ∨ n = 0x2029 then
    [Char.ofNat 92, 'u', '2', '0', '2', hexDigit (n % 16)]
  else [c]

/-- JSON string literal of a Go string. -/
def jsonString (s : String) : String :=
  String.mk ([Char.ofNat 34] ++ s.data.flatMap jsonEscapeChar ++ [Char.ofNat 34])

/-- A reading of the wall clock, `time.Now()`; the program only ever uses its
rendering as text. -/
structure Time where
  text : String
  deriving DecidableEq, Repr

/-- The method `String` of a clock reading. -/
def Time.String (t : Time) : String := t.text

/-! ## Data model (`main.go`, lines 17-30 and 61-63) -/

/-- The payload of a block. -/
structure certificateCheckout where
  certificateID : String
  User : String
  CheckoutDate : String
  IsGenesis : Bool
  deriving DecidableEq, Repr

/-- One entry of the ledger. -/
structure Block where
  Pos : Int
  Data : certificateCheckout
  Timestamp : String
  Hash : String
  PrevHash : String
  deriving DecidableEq, Repr

/-- The chain: the slice of blocks, first block first. -/
structure Blockchain where
  blocks : List Block
  deriving DecidableEq, Repr

/-- The zero value of `certificateCheckout`. -/
def certificateCheckout.zero : certificateCheckout := ⟨"", "", "", false⟩

/-- The zero value `Block{}`. -/
def Block.zero : Block := ⟨0, certificateCheckout.zero, "", "", ""⟩

/-- Run-time panics of the chain operations. -/
inductive Panic where
  | indexOutOfRange
  | lenOutOfRange
  deriving DecidableEq, Repr

/-- Result of `json.Marshal` on a `certificateCheckout`.  Only exported fields
are encoded, each under the name of its tag and in declaration order; the
field `certificateID` starts with a lowercase letter, is therefore unexported,
and is left out. -/
def jsonMarshal (d : certificateCheckout) : String :=
  "\x7b\"user\":" ++ jsonString d.User ++
    ",\"checkout_date\":" ++ jsonString d.CheckoutDate ++
    ",\"is_genesis\":" ++ (if d.IsGenesis then "true" else "false") ++ "\x7d"

/-! ## Operations (`main.go`, lines 40-108) -/

/-- The local `data` of `generateHash` (line 44): the string that is hashed. -/
def hashData (b : Block) : String :=
  runeString b.Pos ++ b.Timestamp ++ jsonMarshal b.Data ++ b.PrevHash

/-- The method `generateHash` (lines 40-48): stores the hexadecimal SHA-256
digest of `hashData` in the field `Hash`. -/
def generateHash (b : Block) : Block :=
  { b with Hash := hexEncodeToString (sha256Sum (utf8Bytes (hashData b))) }

/-- The function `CreateBlock` (lines 50-59); `now` is the reading of
`time.Now()` at line 53.  The predecessor is only read. -/
def CreateBlock (prevBlock : Block) (checkoutItem : certificateCheckout) (now : Time) : Block :=
  let block := Block.zero
  let block := { block with Pos := wrapInt (prevBlock.Pos + 1) }
  let block := { block with Timestamp := now.String }
  let block := { block with Data := checkoutItem }
  let block := { block with PrevHash := prevBlock.Hash }
  generateHash block

/-- The method `validateHash` (lines 102-108): regenerates the hash in place
and compares it with the argument; returns the verdict and the updated block. -/
def validateHash (b : Block) (hash : String) : Bool × Block :=
  let b := generateHash b
  if b.Hash ≠ hash then (false, b) else (true, b)

/-- The function `validBlock` (lines 86-100): returns the verdict and the
candidate as the call leaves it.  `prevBlock.Hash` is read before the
candidate is written to and `Pos` is never written, so the definition also
covers a call with both pointers equal. -/
def validBlock (block prevBlock : Block) : Bool × Block :=
  if prevBlock.Hash ≠ block.PrevHash then (false, block)
  else
    let r := validateHash block block.Hash
    if !r.1 then (false, r.2)
    else if wrapInt (prevBlock.Pos + 1) ≠ r.2.Pos then (false, r.2)
    else (true, r.2)

/-- Lines 73-75 of `AddBlock`: the candidate is appended when `validBlock`
accepts it, and the chain is left as it is otherwise.  `append` panics when
the length of the slice would exceed the largest `int`. -/
def AddBlock.commit (bc : Blockchain) (block prevBlock : Block) : Except Panic Blockchain :=
  let r := validBlock block prevBlock
  if r.1 then
    if (bc.blocks.length : Int) < maxInt then .ok { bc with blocks := bc.blocks ++ [r.2] }
    else .error Panic.lenOutOfRange
  else .ok bc

/-- The method `AddBlock` (lines 67-76); `now` is the clock reading taken by
`CreateBlock`.  Reading the last element of an empty slice panics. -/
def AddBlock (bc : Blockchain) (data : certificateCheckout) (now : Time) : Except Panic Blockchain :=
  match bc.blocks.getLast? with
  | none => .error Panic.indexOutOfRange
  | some prevBlock => AddBlock.commit bc (CreateBlock prevBlock data now) prevBlock

/-- The function `GenesisBlock` (lines 78-80). -/
def GenesisBlock (now : Time) : Block :=
  CreateBlock Block.zero { certificateCheckout.zero with IsGenesis := true } now

/-- The function `NewBlockchain` (lines 82-84). -/
def NewBlockchain (now : Time) : Blockchain :=
  ⟨[GenesisBlock now]⟩

/-- Chains produced from `NewBlockchain` by `n` returning calls of `AddBlock`,
with any payloads and any clock readings. -/
inductive ReachableIn : Nat → Blockchain → Prop where
  | new (now : Time) : ReachableIn 0 (NewBlockchain now)
  | add {n : Nat} {bc bc' : Blockchain} (data : certificateCheckout) (now : Time) :
      ReachableIn n bc → AddBlock bc data now = .ok bc' → ReachableIn (n + 1) bc'

/-- Chains produced from `NewBlockchain` by finitely many calls of `AddBlock`. -/
def Reachable (bc : Blockchain) : Prop := ∃ n, ReachableIn n bc

/-! ## The certificate endpoint (`main.go`, lines 32-38 and 142-164) -/

/-- A certificate record. -/
structure certificate where
  ID : String
  Title : String
  Author : String
  PublishDate : String
  ISBN : String
  deriving DecidableEq, Repr

/-- The handler `newcertificate` (lines 142-164), on the outcome of decoding
the request body: a decoding error answers status 500 without a record; a
decoded record answers status 200 with the record whose `ID` is the `%x` text
of the MD5 digest of `ISBN + PublishDate` (lines 151-153), which is the record
that is then marshalled into the response. -/
def newcertificate (decoded : Except String certificate) : Nat × Option certificate :=
  match decoded with
  | .error _ => (500, none)
  | .ok certificate =>
    let h := md5Sum (utf8Bytes (certificate.ISBN ++ certificate.PublishDate))
    let certificate := { certificate with ID := sprintfHex h }
    (200, some certificate)

/-! ## Character classes -/

/-- Length of the first token of a JSON-escaped text: 6 for a `\\u` escape,
2 for any other backslash escape, 1 for a character written as it is. -/
def jsonTokenLength : List Char → Nat
  | a :: b :: _ => if a = Char.ofNat 92 then (if b = Char.ofNat 117 then 6 else 2) else 1
  | _ => 1

/-- Lowercase hexadecimal digits: `0` to `9` and `a` to `f`. -/
def isLowerHex (c : Char) : Bool :=
  (48 ≤ c.toNat && c.toNat ≤ 57) || (97 ≤ c.toNat && c.toNat ≤ 102)

/-! ## Sample data -/

/-- A clock reading used in the examples. -/
def sampleTime : Time := ⟨"2024-01-01 00:00:00 +0000 UTC"⟩

/-- The payload of the end-to-end scenario of the specification. -/
def samplePayload : certificateCheckout := ⟨"c1", "alice", "2024-01-01", false⟩

/-- A fresh chain after one `AddBlock`. -/
def sampleChain : Blockchain :=
  ⟨[GenesisBlock sampleTime, CreateBlock (GenesisBlock sampleTime) samplePayload sampleTime]⟩

/-- The second block of `sampleChain`. -/
def sampleBlock : Block := CreateBlock (GenesisBlock sampleTime) samplePayload sampleTime

/-- The sample payload with another certificate identifier. -/
def otherCertificatePayload : certificateCheckout := ⟨"c2", "alice", "2024-01-01", false⟩

/-- A crafted candidate that names a previous hash its predecessor does not have. -/
def craftedCandidate : Block := { Block.zero with Pos := 1, PrevHash := "x" }

/-- The sample block with a stored hash that is not its hash. -/
def tamperedBlock : Block := { sampleBlock with Hash := "tampered" }

/-- A block whose timestamp is the text of a serialized payload. -/
def shiftedBlockA : Block :=
  ⟨1, certificateCheckout.zero, jsonMarshal certificateCheckout.zero, "", ""⟩

/-- A block whose previous hash is the text of a serialized payload. -/
def shiftedBlockB : Block :=
  ⟨1, certificateCheckout.zero, "", "", jsonMarshal certificateCheckout.zero⟩

/-- The certificate record of the certificate scenario of the specification. -/
def sampleCertificate : certificate :=
  ⟨"", "A Title", "An Author", "2020-05-01", "1234567890"⟩

/-- The same ISBN and publish date with other title, author and incoming identifier. -/
def otherCertificate : certificate :=
  ⟨"incoming", "Another Title", "Another Author", "2020-05-01", "1234567890"⟩

/-- The invariant of a chain of blocks: the slice is not empty and not longer
than the largest `int`, the block at index `i` has position `i + 1` and a
stored hash that `generateHash` reproduces, and each block names the hash of
the block before it. -/
def ChainInv (l : List Block) : Prop :=
  (l.length : Int) ≤ maxInt ∧ l ≠ [] ∧
  (∀ (i : Nat) (b : Block), l[i]? = some b → b.Pos = (i : Int) + 1 ∧ generateHash b = b) ∧
  (∀ (i : Nat) (b p : Block), l[i + 1]? = some b → l[i]? = some p → b.PrevHash = p.Hash)

/-! ## Basic facts about the operations -/

theorem wrapInt_of_range (x : Int) (h1 : minInt ≤ x) (h2 : x ≤ maxInt) : wrapInt x = x := by
  unfold wrapInt
  unfold minInt at h1
  unfold maxInt at h2
  rw [Int.emod_eq_of_lt (by omega) (by omega)]
  omega

theorem hashData_generateHash (b : Block) : hashData (generateHash b) = hashData b := rfl

theorem generateHash_idem (b : Block) : generateHash (generateHash b) = generateHash b := rfl

theorem generateHash_CreateBlock (prev : Block) (d : certificateCheckout) (t : Time) :
    generateHash (CreateBlock prev d t) = CreateBlock prev d t := rfl

theorem validBlock_fst (block prevBlock : Block) :
    (validBlock block prevBlock).1 =
      decide (prevBlock.Hash = block.PrevHash ∧ (generateHash block).Hash = block.Hash ∧
        wrapInt (prevBlock.Pos + 1) = block.Pos) := by
  unfold validBlock validateHash
  by_cases h1 : prevBlock.Hash = block.PrevHash
  · by_cases h2 : (generateHash block).Hash = block.Hash
    · by_cases h3 : wrapInt (prevBlock.Pos + 1) = block.Pos
      · have hp : (generateHash block).Pos = block.Pos := rfl
        simp [h1, h2, hp, h3]
      · have hp : (generateHash block).Pos = block.Pos := rfl
        simp [h1, h2, hp, h3]
    · simp [h1, h2]
  · simp [h1]

theorem validBlock_CreateBlock (prev : Block) (d : certificateCheckout) (t : Time) :
    validBlock (CreateBlock prev d t) prev = (true, CreateBlock prev d t) := by
  have hP : (CreateBlock prev d t).PrevHash = prev.Hash := rfl
  have hN : (CreateBlock prev d t).Pos = wrapInt (prev.Pos + 1) := rfl
  unfold validBlock validateHash
  simp [generateHash_CreateBlock, hP, hN]

theorem AddBlock_of_getLast (bc : Blockchain) (data : certificateCheckout) (now : Time)
    (tail : Block) (h : bc.blocks.getLast? = some tail) :
    AddBlock bc data now =
      if (bc.blocks.length : Int) < maxInt then
        .ok { bc with blocks := bc.blocks ++ [CreateBlock tail data now] }
      else .error Panic.lenOutOfRange := by
  unfold AddBlock
  rw [h]
  simp [AddBlock.commit, validBlock_CreateBlock]

/-! ## The chain invariant -/

theorem chainInv_new (now : Time) : ChainInv (NewBlockchain now).blocks := by
  refine ⟨by simp [NewBlockchain, maxInt], by simp [NewBlockchain], ?_, ?_⟩
  · intro i b h
    cases i with
    | zero =>
      simp [NewBlockchain] at h
      subst h
      exact ⟨by simp [GenesisBlock, CreateBlock, generateHash, Block.zero, wrapInt], rfl⟩
    | succ j => simp [NewBlockchain] at h
  · intro i b p h
    simp [NewBlockchain] at h

theorem chainInv_add (bc bc' : Blockchain) (data : certificateCheckout) (now : Time)
    (hinv : ChainInv bc.blocks) (h : AddBlock bc data now = .ok bc') :
    ChainInv bc'.blocks ∧ bc'.blocks.length = bc.blocks.length + 1 := by
  obtain ⟨hlen, hne, hpos, hlink⟩ := hinv
  obtain ⟨tail, htail⟩ : ∃ tail, bc.blocks.getLast? = some tail := by
    cases hl : bc.blocks.getLast? with
    | none => exact absurd (List.getLast?_eq_none_iff.mp hl) hne
    | some x => exact ⟨x, rfl⟩
  rw [AddBlock_of_getLast bc data now tail htail] at h
  by_cases hlt : (bc.blocks.length : Int) < maxInt
  · rw [if_pos hlt] at h
    injection h with h
    subst h
    have hpos1 : 0 < bc.blocks.length := List.length_pos.mpr hne
    have htail' : bc.blocks[bc.blocks.length - 1]? = some tail := by
      rw [← List.getLast?_eq_getElem?]; exact htail
    have htpos : tail.Pos = ((bc.blocks.length - 1 : Nat) : Int) + 1 := (hpos _ _ htail').1
    have htpos' : tail.Pos = (bc.blocks.length : Int) := by omega
    have hnew : (CreateBlock tail data now).Pos = (bc.blocks.length : Int) + 1 := by
      show wrapInt (tail.Pos + 1) = _
      rw [htpos']
      apply wrapInt_of_range
      · unfold minInt; omega
      · omega
    refine ⟨⟨?_, by simp, ?_, ?_⟩, by simp⟩
    · simp only [List.length_append, List.length_singleton]
      push_cast
      omega
    · intro i b hb
      by_cases hi : i < bc.blocks.length
      · rw [List.getElem?_append_left hi] at hb
        exact hpos i b hb
      · have hi' : bc.blocks.length ≤ i := Nat.le_of_not_lt hi
        rw [List.getElem?_append_right hi'] at hb
        have : i - bc.blocks.length = 0 := by
          by_contra hc
          have : (i - bc.blocks.length) = (i - bc.blocks.length - 1) + 1 := by omega
          rw [this] at hb
          simp at hb
        rw [this] at hb
        simp at hb
        subst hb
        have hieq : i = bc.blocks.length := by omega
        refine ⟨?_, rfl⟩
        rw [hnew, hieq]
    · intro i b p hb hp
      by_cases hi : i + 1 < bc.blocks.length
      · rw [List.getElem?_append_left hi] at hb
        rw [List.getElem?_append_left (by omega)] at hp
        exact hlink i b p hb hp
      · have hi' : bc.blocks.length ≤ i + 1 := Nat.le_of_not_lt hi
        rw [List.getElem?_append_right hi'] at hb
        have hz : i + 1 - bc.blocks.length = 0 := by
          by_contra hc
          have : (i + 1 - bc.blocks.length) = (i + 1 - bc.blocks.length - 1) + 1 := by omega
          rw [this] at hb
          simp at hb
        rw [hz] at hb
        simp at hb
        subst hb
        have hieq : i = bc.blocks.length - 1 := by omega
        rw [List.getElem?_append_left (by omega), hieq, htail'] at hp
        injection hp with hp
        subst hp
        rfl
  · rw [if_neg hlt] at h
    cases h

theorem reachableIn_inv {n : Nat} {bc : Blockchain} (h : ReachableIn n bc) :
    ChainInv bc.blocks ∧ bc.blocks.length = n + 1 := by
  induction h with
  | new now => exact ⟨chainInv_new now, by simp [NewBlockchain]⟩
  | add data now _ hadd ih =>
    obtain ⟨h1, h2⟩ := chainInv_add _ _ data now ih.1 hadd
    exact ⟨h1, by omega⟩

theorem reachable_inv {bc : Blockchain} (h : Reachable bc) : ChainInv bc.blocks := by
  obtain ⟨n, hn⟩ := h
  exact (reachableIn_inv hn).1

theorem getElem?_of_lt_length {l : List Block} {i : Nat} (h : i < l.length) :
    ∃ b, l[i]? = some b :=
  ⟨l[i], List.getElem?_eq_getElem h⟩

theorem sampleChain_reachableIn : ReachableIn 1 sampleChain := by
  refine ReachableIn.add samplePayload sampleTime (ReachableIn.new sampleTime) ?_
  rw [AddBlock_of_getLast (NewBlockchain sampleTime) samplePayload sampleTime
    (GenesisBlock sampleTime) (by simp [NewBlockchain])]
  simp [NewBlockchain, sampleChain, maxInt]

/-! ## Validation -/

/-- C1: `validBlock` returns true exactly when the linkage check, the
integrity check (the hash recomputed from the candidate's position, timestamp,
serialized payload and previous hash equals the hash stored before the call)
and the contiguity check all hold; it returns false exactly when one of the
three fails. -/
theorem validBlock_iff_checks (block prevBlock : Block) :
    ((validBlock block prevBlock).1 = true ↔
      (prevBlock.Hash = block.PrevHash ∧
        hexEncodeToString (sha256Sum (utf8Bytes
          (runeString block.Pos ++ block.Timestamp ++ jsonMarshal block.Data ++
            block.PrevHash))) = block.Hash ∧
        wrapInt (prevBlock.Pos + 1) = block.Pos)) ∧
    ((validBlock block prevBlock).1 = false ↔
      (prevBlock.Hash ≠ block.PrevHash ∨
        hexEncodeToString (sha256Sum (utf8Bytes
          (runeString block.Pos ++ block.Timestamp ++ jsonMarshal block.Data ++
            block.PrevHash))) ≠ block.Hash ∨
        wrapInt (prevBlock.Pos + 1) ≠ block.Pos)) := by
  have hg : (generateHash block).Hash =
      hexEncodeToString (sha256Sum (utf8Bytes
        (runeString block.Pos ++ block.Timestamp ++ jsonMarshal block.Data ++
          block.PrevHash))) := rfl
  rw [validBlock_fst, hg]
  constructor
  · simp
  · rw [decide_eq_false_iff_not]
    tauto

/-! ## Invariants of reachable chains -/

/-- C2: linkage invariant.  In every chain reachable from `NewBlockchain` by
calls of `AddBlock`, the block at every index `i > 0` has a `PrevHash` equal
to the `Hash` of the block at index `i - 1`. -/
theorem reachable_linkage (bc : Blockchain) (h : Reachable bc) (i : Nat) (hi : 0 < i)
    (hlt : i < bc.blocks.length) :
    ∃ b p, bc.blocks[i]? = some b ∧ bc.blocks[i - 1]? = some p ∧ b.PrevHash = p.Hash := by
  obtain ⟨_, _, _, hlink⟩ := reachable_inv h
  obtain ⟨b, hb⟩ := getElem?_of_lt_length hlt
  obtain ⟨p, hp⟩ := getElem?_of_lt_length (show i - 1 < bc.blocks.length by omega)
  refine ⟨b, p, hb, hp, hlink (i - 1) b p ?_ hp⟩
  rw [Nat.sub_add_cancel hi]
  exact hb

/-- Instance of the linkage invariant on the sample chain, at index 1. -/
theorem reachable_linkage_witness :
    Reachable sampleChain ∧ 0 < 1 ∧ 1 < sampleChain.blocks.length ∧
      ∃ b p, sampleChain.blocks[1]? = some b ∧ sampleChain.blocks[1 - 1]? = some p ∧
        b.PrevHash = p.Hash :=
  ⟨⟨1, sampleChain_reachableIn⟩, by decide, by simp [sampleChain],
    reachable_linkage sampleChain ⟨1, sampleChain_reachableIn⟩ 1 (by decide)
      (by simp [sampleChain])⟩

/-- C3: integrity invariant.  In every chain reachable from `NewBlockchain` by
calls of `AddBlock`, every block, the genesis block included, stores the hash
that `generateHash` recomputes from its position, timestamp, serialized
payload and previous hash. -/
theorem reachable_integrity (bc : Blockchain) (h : Reachable bc) (b : Block)
    (hb : b ∈ bc.blocks) :
    b.Hash = hexEncodeToString (sha256Sum (utf8Bytes
      (runeString b.Pos ++ b.Timestamp ++ jsonMarshal b.Data ++ b.PrevHash))) ∧
    (generateHash b).Hash = b.Hash := by
  obtain ⟨_, _, hpos, _⟩ := reachable_inv h
  obtain ⟨i, hi⟩ := List.getElem?_of_mem hb
  have hgen : generateHash b = b := (hpos i b hi).2
  have hH : (generateHash b).Hash = b.Hash := by rw [hgen]
  exact ⟨hH.symm, hH⟩

/-- Instance of the integrity invariant on the genesis block of a fresh chain. -/
theorem reachable_integrity_witness :
    Reachable (NewBlockchain sampleTime) ∧
      GenesisBlock sampleTime ∈ (NewBlockchain sampleTime).blocks ∧
      (GenesisBlock sampleTime).Hash = hexEncodeToString (sha256Sum (utf8Bytes
        (runeString (GenesisBlock sampleTime).Pos ++ (GenesisBlock sampleTime).Timestamp ++
          jsonMarshal (GenesisBlock sampleTime).Data ++ (GenesisBlock sampleTime).PrevHash))) ∧
      (generateHash (GenesisBlock sampleTime)).Hash = (GenesisBlock sampleTime).Hash :=
  ⟨⟨0, ReachableIn.new sampleTime⟩, by simp [NewBlockchain],
    reachable_integrity (NewBlockchain sampleTime) ⟨0, ReachableIn.new sampleTime⟩
      (GenesisBlock sampleTime) (by simp [NewBlockchain])⟩

/-- C4: append monotonicity.  In every chain reachable from `NewBlockchain` by
`n` calls of `AddBlock`, for every `i` from 1 to `n` the block at index `i`
exists and its position is the position of the block at index `i - 1` plus 1. -/
theorem reachableIn_pos_succ (n : Nat) (bc : Blockchain) (h : ReachableIn n bc) (i : Nat)
    (h1 : 1 ≤ i) (h2 : i ≤ n) :
    ∃ b p, bc.blocks[i]? = some b ∧ bc.blocks[i - 1]? = some p ∧ b.Pos = p.Pos + 1 := by
  obtain ⟨⟨_, _, hpos, _⟩, hlen⟩ := reachableIn_inv h
  obtain ⟨b, hb⟩ := getElem?_of_lt_length (show i < bc.blocks.length by omega)
  obtain ⟨p, hp⟩ := getElem?_of_lt_length (show i - 1 < bc.blocks.length by omega)
  refine ⟨b, p, hb, hp, ?_⟩
  rw [(hpos i b hb).1, (hpos (i - 1) p hp).1]
  omega

/-- Instance of append monotonicity on the sample chain, at index 1. -/
theorem reachableIn_pos_succ_witness :
    ReachableIn 1 sampleChain ∧ 1 ≤ 1 ∧ 1 ≤ 1 ∧
      ∃ b p, sampleChain.blocks[1]? = some b ∧ sampleChain.blocks[1 - 1]? = some p ∧
        b.Pos = p.Pos + 1 :=
  ⟨sampleChain_reachableIn, by decide, by decide,
    reachableIn_pos_succ 1 sampleChain sampleChain_reachableIn 1 (by decide) (by decide)⟩

/-- C5, as stated, fails: the genesis block of a fresh chain has position 1,
not 0, so the block at index 0 does not have position 0. -/
theorem genesis_pos_ne_zero :
    Reachable (NewBlockchain sampleTime) ∧
      (NewBlockchain sampleTime).blocks[0]? = some (GenesisBlock sampleTime) ∧
      (GenesisBlock sampleTime).Pos = 1 ∧
      ¬ (∀ (i : Nat) (b : Block),
          (NewBlockchain sampleTime).blocks[i]? = some b → b.Pos = (i : Int)) := by
  have hp : (GenesisBlock sampleTime).Pos = 1 := by
    simp [GenesisBlock, CreateBlock, generateHash, Block.zero, wrapInt]
  refine ⟨⟨0, ReachableIn.new sampleTime⟩, by simp [NewBlockchain], hp, ?_⟩
  intro hall
  have h0 := hall 0 (GenesisBlock sampleTime) (by simp [NewBlockchain])
  rw [hp] at h0
  exact absurd h0 (by decide)

/-- C5, amended: positions start at 1.  In every chain reachable from
`NewBlockchain` by calls of `AddBlock`, the genesis block (index 0) has
position 1, and the block at index `i` has position `i + 1`. -/
theorem reachable_pos_index (bc : Blockchain) (h : Reachable bc) :
    (∃ g, bc.blocks[0]? = some g ∧ g.Pos = 1) ∧
    ∀ i : Nat, i < bc.blocks.length → ∃ b, bc.blocks[i]? = some b ∧ b.Pos = (i : Int) + 1 := by
  obtain ⟨_, hne, hpos, _⟩ := reachable_inv h
  have hall : ∀ i : Nat, i < bc.blocks.length →
      ∃ b, bc.blocks[i]? = some b ∧ b.Pos = (i : Int) + 1 := by
    intro i hi
    obtain ⟨b, hb⟩ := getElem?_of_lt_length hi
    exact ⟨b, hb, (hpos i b hb).1⟩
  refine ⟨?_, hall⟩
  obtain ⟨g, hg, hgp⟩ := hall 0 (List.length_pos.mpr hne)
  exact ⟨g, hg, by simpa using hgp⟩

/-- Instance of the position numbering on the sample chain. -/
theorem reachable_pos_index_witness :
    Reachable sampleChain ∧
      (∃ g, sampleChain.blocks[0]? = some g ∧ g.Pos = 1) ∧
      ∀ i : Nat, i < sampleChain.blocks.length →
        ∃ b, sampleChain.blocks[i]? = some b ∧ b.Pos = (i : Int) + 1 :=
  ⟨⟨1, sampleChain_reachableIn⟩, reachable_pos_index sampleChain ⟨1, sampleChain_reachableIn⟩⟩

/-! ## What the hash covers -/

theorem jsonMarshal_certificateID (d : certificateCheckout) (x : String) :
    jsonMarshal { d with certificateID := x } = jsonMarshal d := rfl

/-- C6 at a failing input: the sample block and the same block with the
certificate identifier of its payload changed from "c1" to "c2" have different
payloads, yet the same serialized payload, the same hashed string and the same
recomputed hash, which is the stored hash of the sample block. -/
theorem certificateID_not_hashed :
    otherCertificatePayload ≠ sampleBlock.Data ∧
      otherCertificatePayload.User = sampleBlock.Data.User ∧
      otherCertificatePayload.CheckoutDate = sampleBlock.Data.CheckoutDate ∧
      otherCertificatePayload.IsGenesis = sampleBlock.Data.IsGenesis ∧
      jsonMarshal otherCertificatePayload = jsonMarshal sampleBlock.Data ∧
      hashData { sampleBlock with Data := otherCertificatePayload } = hashData sampleBlock ∧
      (generateHash { sampleBlock with Data := otherCertificatePayload }).Hash =
        sampleBlock.Hash := by
  refine ⟨?_, rfl, rfl, rfl, rfl, rfl, rfl⟩
  intro h
  have h2 : otherCertificatePayload.certificateID = sampleBlock.Data.certificateID := by rw [h]
  have h3 : sampleBlock.Data.certificateID = "c1" := rfl
  rw [h3] at h2
  exact absurd h2 (by decide)

/-- C7 at a failing input: positions 55296 and 55297 are both surrogate code
points, `string(int)` turns both into the replacement character, and two
blocks that differ only in these positions have the same hashed string and
the same recomputed hash. -/
theorem surrogate_positions_same_hash :
    runeString 55296 = runeString 55297 ∧
      ({ sampleBlock with Pos := 55296 } : Block) ≠ { sampleBlock with Pos := 55297 } ∧
      hashData { sampleBlock with Pos := 55296 } = hashData { sampleBlock with Pos := 55297 } ∧
      (generateHash { sampleBlock with Pos := 55296 }).Hash =
        (generateHash { sampleBlock with Pos := 55297 }).Hash := by
  have hr : runeString 55296 = runeString 55297 := by
    simp [runeString, Nat.isValidChar]
  have hd : hashData { sampleBlock with Pos := 55296 } =
      hashData { sampleBlock with Pos := 55297 } := by
    show runeString 55296 ++ _ ++ _ ++ _ = runeString 55297 ++ _ ++ _ ++ _
    rw [hr]
  refine ⟨hr, ?_, hd, ?_⟩
  · intro h
    have h2 := congrArg Block.Pos h
    exact absurd h2 (by decide)
  · show hexEncodeToString (sha256Sum (utf8Bytes (hashData _))) =
      hexEncodeToString (sha256Sum (utf8Bytes (hashData _)))
    rw [hd]

/-! ## Construction -/

/-- C8: `CreateBlock` returns a block whose position is the predecessor's
position plus 1 (in `int` arithmetic, which is the exact successor whenever
the predecessor's position is below the largest `int`), whose timestamp is
the text of the clock reading, whose payload is the given payload, whose
previous hash is the predecessor's hash, and whose hash is the hexadecimal
SHA-256 digest of the concatenation of the text of the position, the
timestamp, the serialized payload and the previous hash.  The predecessor is
only read: the model returns nothing but the new block. -/
theorem CreateBlock_fields (prev : Block) (p : certificateCheckout) (t : Time) :
    (CreateBlock prev p t).Pos = wrapInt (prev.Pos + 1) ∧
    (minInt ≤ prev.Pos → prev.Pos < maxInt → (CreateBlock prev p t).Pos = prev.Pos + 1) ∧
    (CreateBlock prev p t).Timestamp = t.String ∧
    (CreateBlock prev p t).Data = p ∧
    (CreateBlock prev p t).PrevHash = prev.Hash ∧
    (CreateBlock prev p t).Hash =
      hexEncodeToString (sha256Sum (utf8Bytes
        (runeString (CreateBlock prev p t).Pos ++ (CreateBlock prev p t).Timestamp ++
          jsonMarshal p ++ (CreateBlock prev p t).PrevHash))) := by
  refine ⟨rfl, ?_, rfl, rfl, rfl, rfl⟩
  intro h1 h2
  show wrapInt (prev.Pos + 1) = prev.Pos + 1
  apply wrapInt_of_range
  · unfold minInt at *; omega
  · omega

/-- Instance of the exact successor position, for the zero predecessor. -/
theorem CreateBlock_fields_witness :
    minInt ≤ Block.zero.Pos ∧ Block.zero.Pos < maxInt ∧
      (CreateBlock Block.zero samplePayload sampleTime).Pos = Block.zero.Pos + 1 :=
  ⟨by decide, by decide,
    (CreateBlock_fields Block.zero samplePayload sampleTime).2.1 (by decide) (by decide)⟩

/-- C9: `GenesisBlock` is `CreateBlock` applied to the zero predecessor
(position 0, empty timestamp, empty hash, empty payload) and the payload whose
genesis flag is true and whose other fields are empty; the result has
position 1, an empty previous hash and the genesis flag set, and
`NewBlockchain` is the chain of length 1 that holds exactly this block. -/
theorem GenesisBlock_NewBlockchain (now : Time) :
    GenesisBlock now =
      CreateBlock ⟨0, ⟨"", "", "", false⟩, "", "", ""⟩ ⟨"", "", "", true⟩ now ∧
    (GenesisBlock now).Pos = 1 ∧
    (GenesisBlock now).PrevHash = "" ∧
    (GenesisBlock now).Data.IsGenesis = true ∧
    (GenesisBlock now).Data = ⟨"", "", "", true⟩ ∧
    (NewBlockchain now).blocks = [GenesisBlock now] ∧
    (NewBlockchain now).blocks.length = 1 := by
  refine ⟨rfl, ?_, rfl, rfl, rfl, rfl, rfl⟩
  simp [GenesisBlock, CreateBlock, generateHash, Block.zero, wrapInt]

/-! ## Appending -/

/-- C10: rejection does not mutate state.  On a non-empty chain that `append`
can still extend, `AddBlock` returns a chain that is either the chain before
or the chain before with exactly one block appended at the tail, and it is
the chain before whenever `validBlock` rejects the candidate; more generally,
the guarded append of `AddBlock` returns the chain unchanged for every
candidate that `validBlock` rejects. -/
theorem AddBlock_rejection_unchanged (bc : Blockchain) (data : certificateCheckout)
    (now : Time) (hne : bc.blocks ≠ []) (hlen : (bc.blocks.length : Int) < maxInt) :
    (∃ bc', AddBlock bc data now = .ok bc' ∧
      (bc' = bc ∨ ∃ b, bc'.blocks = bc.blocks ++ [b]) ∧
      ((validBlock (CreateBlock (bc.blocks.getLast hne) data now)
          (bc.blocks.getLast hne)).1 = false → bc' = bc)) ∧
    (AddBlock bc data now =
      AddBlock.commit bc (CreateBlock (bc.blocks.getLast hne) data now)
        (bc.blocks.getLast hne)) ∧
    (∀ candidate prev : Block, (validBlock candidate prev).1 = false →
      AddBlock.commit bc candidate prev = .ok bc) := by
  have htail : bc.blocks.getLast? = some (bc.blocks.getLast hne) :=
    List.getLast?_eq_getLast _ hne
  refine ⟨?_, ?_, ?_⟩
  · refine ⟨{ bc with blocks := bc.blocks ++ [CreateBlock (bc.blocks.getLast hne) data now] },
      ?_, Or.inr ⟨_, rfl⟩, ?_⟩
    · rw [AddBlock_of_getLast bc data now _ htail, if_pos hlen]
    · intro hf
      rw [validBlock_CreateBlock] at hf
      exact absurd hf (by simp)
  · unfold AddBlock
    rw [htail]
  · intro candidate prev hf
    unfold AddBlock.commit
    simp [hf]

/-- Instance of the rejection property: a crafted candidate with a wrong previous hash
leaves a fresh chain unchanged. -/
theorem AddBlock_rejection_unchanged_witness :
    (NewBlockchain sampleTime).blocks ≠ [] ∧
      (((NewBlockchain sampleTime).blocks.length : Nat) : Int) < maxInt ∧
      (validBlock craftedCandidate Block.zero).1 = false ∧
      AddBlock.commit (NewBlockchain sampleTime) craftedCandidate Block.zero =
        .ok (NewBlockchain sampleTime) :=
  ⟨by simp [NewBlockchain], by simp [NewBlockchain, maxInt],
    by simp [validBlock, craftedCandidate, Block.zero],
    (AddBlock_rejection_unchanged (NewBlockchain sampleTime) samplePayload sampleTime
      (by simp [NewBlockchain]) (by simp [NewBlockchain, maxInt])).2.2
      craftedCandidate Block.zero (by simp [validBlock, craftedCandidate, Block.zero])⟩

/-! ## Shape of the digests -/

theorem hexDigit_isLowerHex (n : Nat) (h : n < 16) : isLowerHex (hexDigit n) = true := by
  interval_cases n <;> decide

theorem hexEncodeToString_length (bytes : List Nat) :
    (hexEncodeToString bytes).length = 2 * bytes.length := by
  unfold hexEncodeToString
  rw [String.length_mk]
  induction bytes with
  | nil => rfl
  | cons b t ih =>
    simp only [List.flatMap_cons, List.length_append, List.length_cons, List.length_nil, ih]
    omega

theorem hexEncodeToString_isLowerHex (bytes : List Nat) (h : ∀ b ∈ bytes, b < 256) :
    ∀ c ∈ (hexEncodeToString bytes).data, isLowerHex c = true := by
  intro c hc
  unfold hexEncodeToString at hc
  simp only [List.mem_flatMap, List.mem_cons, List.mem_singleton, List.not_mem_nil,
    or_false] at hc
  obtain ⟨b, hb, hcb⟩ := hc
  have hlt := h b hb
  rcases hcb with rfl | rfl
  · exact hexDigit_isLowerHex _ (by omega)
  · exact hexDigit_isLowerHex _ (by omega)

theorem sha256Sum_length (msg : List Nat) : (sha256Sum msg).length = 32 := by
  simp [sha256Sum, wordBytes]

theorem sha256Sum_lt (msg : List Nat) : ∀ b ∈ sha256Sum msg, b < 256 := by
  intro b hb
  simp only [sha256Sum, wordBytes, List.mem_append, List.mem_cons, List.mem_singleton,
    List.not_mem_nil, or_false] at hb
  have h256 : ∀ x : Nat, x % 256 < 256 := fun x => Nat.mod_lt x (by decide)
  rcases hb with ((((((h | h) | h) | h) | h) | h) | h) | h <;>
    rcases h with h | h | h | h <;> rw [h] <;> exact h256 _

theorem md5Sum_length (msg : List Nat) : (md5Sum msg).length = 16 := by
  simp [md5Sum, wordBytesLE]

theorem md5Sum_lt (msg : List Nat) : ∀ b ∈ md5Sum msg, b < 256 := by
  intro b hb
  simp only [md5Sum, wordBytesLE, List.mem_append, List.mem_cons, List.mem_singleton,
    List.not_mem_nil, or_false] at hb
  have h256 : ∀ x : Nat, x % 256 < 256 := fun x => Nat.mod_lt x (by decide)
  rcases hb with ((h | h) | h) | h <;>
    rcases h with h | h | h | h <;> rw [h] <;> exact h256 _

theorem generateHash_Hash_length (b : Block) : (generateHash b).Hash.length = 64 := by
  show (hexEncodeToString (sha256Sum (utf8Bytes (hashData b)))).length = 64
  rw [hexEncodeToString_length, sha256Sum_length]

theorem reachableIn_head {n : Nat} {bc : Blockchain} (h : ReachableIn n bc) :
    ∃ now, bc.blocks[0]? = some (GenesisBlock now) := by
  induction h with
  | new now => exact ⟨now, by simp [NewBlockchain]⟩
  | @add n bc bc' data now hr hadd ih =>
    obtain ⟨t, ht⟩ := ih
    have hne : bc.blocks ≠ [] := (reachableIn_inv hr).1.2.1
    obtain ⟨tail, htail⟩ : ∃ tail, bc.blocks.getLast? = some tail := by
      cases hl : bc.blocks.getLast? with
      | none => exact absurd (List.getLast?_eq_none_iff.mp hl) hne
      | some x => exact ⟨x, rfl⟩
    rw [AddBlock_of_getLast bc data now tail htail] at hadd
    by_cases hlt : (bc.blocks.length : Int) < maxInt
    · rw [if_pos hlt] at hadd
      injection hadd with hadd
      subst hadd
      refine ⟨t, ?_⟩
      show (bc.blocks ++ [CreateBlock tail data now])[0]? = _
      rw [List.getElem?_append_left (List.length_pos.mpr hne)]
      exact ht
    · rw [if_neg hlt] at hadd
      cases hadd

/-! ## Appending, continued -/

/-- C11: append-only.  On a non-empty chain that `append` can still extend,
`AddBlock` returns a chain that has the chain before as a prefix, with every
existing block (hence each of its fields `Pos`, `Data`, `Timestamp`, `Hash`
and `PrevHash`) unchanged at its index, and that is not shorter; the guarded
append keeps the chain before as a prefix for every candidate, accepted or
not.  `validBlock` writes to the candidate only, which is a fresh block. -/
theorem AddBlock_append_only (bc : Blockchain) (data : certificateCheckout) (now : Time)
    (hne : bc.blocks ≠ []) (hlen : (bc.blocks.length : Int) < maxInt) :
    (∃ bc', AddBlock bc data now = .ok bc' ∧
      bc.blocks <+: bc'.blocks ∧
      bc.blocks.length ≤ bc'.blocks.length ∧
      ∀ i : Nat, i < bc.blocks.length → bc'.blocks[i]? = bc.blocks[i]?) ∧
    (∀ (candidate prev : Block) (bc' : Blockchain),
      AddBlock.commit bc candidate prev = .ok bc' →
        bc.blocks <+: bc'.blocks ∧ bc.blocks.length ≤ bc'.blocks.length) := by
  have htail : bc.blocks.getLast? = some (bc.blocks.getLast hne) :=
    List.getLast?_eq_getLast _ hne
  refine ⟨⟨{ bc with blocks := bc.blocks ++ [CreateBlock (bc.blocks.getLast hne) data now] },
    ?_, List.prefix_append _ _, by simp, ?_⟩, ?_⟩
  · rw [AddBlock_of_getLast bc data now _ htail, if_pos hlen]
  · intro i hi
    exact List.getElem?_append_left hi
  · intro candidate prev bc' hc
    unfold AddBlock.commit at hc
    by_cases hv : (validBlock candidate prev).1 = true
    · simp only [hv, if_true, if_pos hlen] at hc
      injection hc with hc
      subst hc
      exact ⟨List.prefix_append _ _, by simp⟩
    · simp only [hv] at hc
      injection hc with hc
      subst hc
      exact ⟨List.prefix_refl _, Nat.le_refl _⟩

/-- Instance of the append-only property on a fresh chain, for the payload of
the end-to-end scenario and for a rejected crafted candidate. -/
theorem AddBlock_append_only_witness :
    (NewBlockchain sampleTime).blocks ≠ [] ∧
      (((NewBlockchain sampleTime).blocks.length : Nat) : Int) < maxInt ∧
      (∃ bc', AddBlock (NewBlockchain sampleTime) samplePayload sampleTime = .ok bc' ∧
        (NewBlockchain sampleTime).blocks <+: bc'.blocks ∧
        (NewBlockchain sampleTime).blocks.length ≤ bc'.blocks.length ∧
        ∀ i : Nat, i < (NewBlockchain sampleTime).blocks.length →
          bc'.blocks[i]? = (NewBlockchain sampleTime).blocks[i]?) :=
  ⟨by simp [NewBlockchain], by simp [NewBlockchain, maxInt],
    (AddBlock_append_only (NewBlockchain sampleTime) samplePayload sampleTime
      (by simp [NewBlockchain]) (by simp [NewBlockchain, maxInt])).1⟩

/-! ## Hashing -/

/-- C12: hash determinism.  Two blocks that agree on `Pos`, `Timestamp`, `Data`
and `PrevHash` get the same `Hash` from `generateHash`, whatever their stored
hashes were; `generateHash` changes no field other than `Hash`; and calling it
twice in a row gives the same block as calling it once. -/
theorem generateHash_deterministic (b1 b2 : Block) (hP : b1.Pos = b2.Pos)
    (hT : b1.Timestamp = b2.Timestamp) (hD : b1.Data = b2.Data)
    (hH : b1.PrevHash = b2.PrevHash) :
    (generateHash b1).Hash = (generateHash b2).Hash ∧
    ((generateHash b1).Pos = b1.Pos ∧ (generateHash b1).Data = b1.Data ∧
      (generateHash b1).Timestamp = b1.Timestamp ∧
      (generateHash b1).PrevHash = b1.PrevHash) ∧
    generateHash (generateHash b1) = generateHash b1 ∧
    (generateHash (generateHash b1)).Hash = (generateHash b1).Hash := by
  refine ⟨?_, ⟨rfl, rfl, rfl, rfl⟩, rfl, rfl⟩
  show hexEncodeToString (sha256Sum (utf8Bytes (hashData b1))) =
    hexEncodeToString (sha256Sum (utf8Bytes (hashData b2)))
  have hd : hashData b1 = hashData b2 := by
    unfold hashData
    rw [hP, hT, hD, hH]
  rw [hd]

/-- Instance of hash determinism: the sample block and the same block with
another stored hash. -/
theorem generateHash_deterministic_witness :
    sampleBlock.Pos = tamperedBlock.Pos ∧ sampleBlock.Timestamp = tamperedBlock.Timestamp ∧
      sampleBlock.Data = tamperedBlock.Data ∧ sampleBlock.PrevHash = tamperedBlock.PrevHash ∧
      (generateHash sampleBlock).Hash = (generateHash tamperedBlock).Hash :=
  ⟨rfl, rfl, rfl, rfl, (generateHash_deterministic sampleBlock tamperedBlock rfl rfl rfl rfl).1⟩

/-! ## Fresh candidates -/

/-- C14: a freshly constructed candidate always validates.  For every
non-empty chain that `append` can still extend, every payload and every clock
reading, `validBlock` accepts `CreateBlock` of the tail against the tail, and
`AddBlock` returns the chain with that block appended: one block longer, with
the new block last.  On a fresh chain one `AddBlock` gives length 2. -/
theorem AddBlock_appends_fresh (bc : Blockchain) (data : certificateCheckout) (now : Time)
    (hne : bc.blocks ≠ []) (hlen : (bc.blocks.length : Int) < maxInt) :
    (validBlock (CreateBlock (bc.blocks.getLast hne) data now)
      (bc.blocks.getLast hne)).1 = true ∧
    (∃ bc', AddBlock bc data now = .ok bc' ∧
      bc'.blocks.length = bc.blocks.length + 1 ∧
      bc'.blocks = bc.blocks ++ [CreateBlock (bc.blocks.getLast hne) data now] ∧
      bc'.blocks.getLast? = some (CreateBlock (bc.blocks.getLast hne) data now)) ∧
    (∀ start : Time, ∃ bc', AddBlock (NewBlockchain start) data now = .ok bc' ∧
      bc'.blocks.length = 2) := by
  have htail : bc.blocks.getLast? = some (bc.blocks.getLast hne) :=
    List.getLast?_eq_getLast _ hne
  refine ⟨by rw [validBlock_CreateBlock], ?_, ?_⟩
  · refine ⟨{ bc with blocks := bc.blocks ++ [CreateBlock (bc.blocks.getLast hne) data now] },
      ?_, by simp, rfl, by simp⟩
    rw [AddBlock_of_getLast bc data now _ htail, if_pos hlen]
  · intro start
    refine ⟨⟨[GenesisBlock start, CreateBlock (GenesisBlock start) data now]⟩, ?_, rfl⟩
    rw [AddBlock_of_getLast (NewBlockchain start) data now (GenesisBlock start)
      (by simp [NewBlockchain])]
    simp [NewBlockchain, maxInt]

/-- Instance of the fresh-candidate property on a fresh chain. -/
theorem AddBlock_appends_fresh_witness :
    (NewBlockchain sampleTime).blocks ≠ [] ∧
      (((NewBlockchain sampleTime).blocks.length : Nat) : Int) < maxInt ∧
      ∃ bc', AddBlock (NewBlockchain sampleTime) samplePayload sampleTime = .ok bc' ∧
        bc'.blocks.length = 2 :=
  ⟨by simp [NewBlockchain], by simp [NewBlockchain, maxInt],
    (AddBlock_appends_fresh (NewBlockchain sampleTime) samplePayload sampleTime
      (by simp [NewBlockchain]) (by simp [NewBlockchain, maxInt])).2.2 sampleTime⟩

/-! ## Safety of the tail read -/

/-- C16: tail access is safe on reachable chains.  Every chain reachable from
`NewBlockchain` by calls of `AddBlock` has at least one block, so the index
`len(blocks)-1` read by `AddBlock` holds a block and `AddBlock` never panics
with an index out of range; on the empty chain it does. -/
theorem reachable_tail_in_bounds (bc : Blockchain) (h : Reachable bc) :
    1 ≤ bc.blocks.length ∧
    (∃ tail, bc.blocks[bc.blocks.length - 1]? = some tail) ∧
    (∀ (data : certificateCheckout) (now : Time),
      AddBlock bc data now ≠ .error Panic.indexOutOfRange) ∧
    (∀ (data : certificateCheckout) (now : Time),
      AddBlock ⟨[]⟩ data now = .error Panic.indexOutOfRange) := by
  have hne : bc.blocks ≠ [] := (reachable_inv h).2.1
  have hpos : 0 < bc.blocks.length := List.length_pos.mpr hne
  have htail : bc.blocks.getLast? = some (bc.blocks.getLast hne) :=
    List.getLast?_eq_getLast _ hne
  refine ⟨hpos, getElem?_of_lt_length (by omega), ?_, ?_⟩
  · intro data now
    rw [AddBlock_of_getLast bc data now _ htail]
    by_cases hlt : (bc.blocks.length : Int) < maxInt
    · rw [if_pos hlt]
      intro hc
      cases hc
    · rw [if_neg hlt]
      intro hc
      cases hc
  · intro data now
    rfl

/-- Instance of tail safety on the sample chain. -/
theorem reachable_tail_in_bounds_witness :
    Reachable sampleChain ∧ 1 ≤ sampleChain.blocks.length ∧
      AddBlock sampleChain samplePayload sampleTime ≠ .error Panic.indexOutOfRange :=
  ⟨⟨1, sampleChain_reachableIn⟩,
    (reachable_tail_in_bounds sampleChain ⟨1, sampleChain_reachableIn⟩).1,
    (reachable_tail_in_bounds sampleChain ⟨1, sampleChain_reachableIn⟩).2.2.1
      samplePayload sampleTime⟩

/-! ## The certificate identifier -/

set_option maxRecDepth 100000 in
theorem md5_sample_digest :
    sprintfHex (md5Sum (utf8Bytes "12345678902020-05-01")) =
      "7101ae4f03bbad8c3193e7c3fb1dc45f" := by
  decide

/-- C13: the identifier that `newcertificate` computes is the lowercase
hexadecimal text (32 digits) of the MD5 digest of `ISBN + PublishDate`; two
records with the same ISBN and the same publish date get the same identifier
whatever their title, author and incoming identifier are; for ISBN
"1234567890" and publish date "2020-05-01" it is the digest of
"12345678902020-05-01", which is 7101ae4f03bbad8c3193e7c3fb1dc45f. -/
theorem newcertificate_ID (c : certificate) :
    newcertificate (.ok c) =
      (200, some { c with
        ID := hexEncodeToString (md5Sum (utf8Bytes (c.ISBN ++ c.PublishDate))) }) ∧
    ((hexEncodeToString (md5Sum (utf8Bytes (c.ISBN ++ c.PublishDate)))).length = 32 ∧
      ∀ ch ∈ (hexEncodeToString (md5Sum (utf8Bytes (c.ISBN ++ c.PublishDate)))).data,
        isLowerHex ch = true) ∧
    (∀ c2 : certificate, c2.ISBN = c.ISBN → c2.PublishDate = c.PublishDate →
      (newcertificate (.ok c2)).2.map certificate.ID =
        (newcertificate (.ok c)).2.map certificate.ID) ∧
    (∀ id title author : String,
      (newcertificate (.ok ⟨id, title, author, "2020-05-01", "1234567890"⟩)).2.map
          certificate.ID =
        some (hexEncodeToString (md5Sum (utf8Bytes "12345678902020-05-01"))) ∧
      (newcertificate (.ok ⟨id, title, author, "2020-05-01", "1234567890"⟩)).2.map
          certificate.ID =
        some "7101ae4f03bbad8c3193e7c3fb1dc45f") := by
  refine ⟨rfl, ⟨?_, ?_⟩, ?_, ?_⟩
  · rw [hexEncodeToString_length, md5Sum_length]
  · exact hexEncodeToString_isLowerHex _ (md5Sum_lt _)
  · intro c2 h1 h2
    show some (sprintfHex (md5Sum (utf8Bytes (c2.ISBN ++ c2.PublishDate)))) =
      some (sprintfHex (md5Sum (utf8Bytes (c.ISBN ++ c.PublishDate))))
    rw [h1, h2]
  · intro id title author
    have hcat : ("1234567890" : String) ++ "2020-05-01" = "12345678902020-05-01" := by decide
    have h1 : (newcertificate (.ok ⟨id, title, author, "2020-05-01", "1234567890"⟩)).2.map
        certificate.ID =
        some (sprintfHex (md5Sum (utf8Bytes ("1234567890" ++ "2020-05-01")))) := rfl
    rw [hcat] at h1
    refine ⟨h1, ?_⟩
    rw [h1, md5_sample_digest]

/-- Instance of the certificate identifier: two records with the ISBN and
publish date of the specification's scenario and otherwise different fields. -/
theorem newcertificate_ID_witness :
    otherCertificate.ISBN = sampleCertificate.ISBN ∧
      otherCertificate.PublishDate = sampleCertificate.PublishDate ∧
      (newcertificate (.ok otherCertificate)).2.map certificate.ID =
        (newcertificate (.ok sampleCertificate)).2.map certificate.ID :=
  ⟨rfl, rfl, (newcertificate_ID sampleCertificate).2.2.1 otherCertificate rfl rfl⟩

/-! ## Length of the hash -/

/-- C15: fixed-length hash.  The hash that `generateHash` stores is exactly 64
characters long and consists of lowercase hexadecimal digits only; hence in
every chain reachable from `NewBlockchain` by calls of `AddBlock` the block at
index 0, the genesis block, is the only block whose `PrevHash` is the empty
string. -/
theorem generateHash_hex64 (b : Block) (bc : Blockchain) (h : Reachable bc) :
    ((generateHash b).Hash.length = 64 ∧
      ∀ c ∈ (generateHash b).Hash.data, isLowerHex c = true) ∧
    (∀ (i : Nat) (blk : Block), bc.blocks[i]? = some blk → (blk.PrevHash = "" ↔ i = 0)) := by
  refine ⟨⟨generateHash_Hash_length b,
    hexEncodeToString_isLowerHex _ (sha256Sum_lt _)⟩, ?_⟩
  obtain ⟨n, hn⟩ := h
  obtain ⟨⟨_, _, hpos, hlink⟩, _⟩ := reachableIn_inv hn
  obtain ⟨t, ht⟩ := reachableIn_head hn
  intro i blk hblk
  constructor
  · intro hempty
    by_contra hi
    have hi1 : i - 1 + 1 = i := by omega
    have hlt : i < bc.blocks.length := by
      by_contra hge
      rw [List.getElem?_eq_none (by omega)] at hblk
      cases hblk
    obtain ⟨p, hp⟩ := getElem?_of_lt_length (show i - 1 < bc.blocks.length by omega)
    have hl : blk.PrevHash = p.Hash := hlink (i - 1) blk p (by rw [hi1]; exact hblk) hp
    have hgen : generateHash p = p := (hpos (i - 1) p hp).2
    have hlen : p.Hash.length = 64 := by
      rw [← hgen]
      exact generateHash_Hash_length p
    rw [← hl, hempty] at hlen
    exact absurd hlen (by decide)
  · intro hi
    subst hi
    rw [ht] at hblk
    injection hblk with hblk
    subst hblk
    rfl

/-- Instance of the fixed-length hash on the sample block and the sample chain. -/
theorem generateHash_hex64_witness :
    Reachable sampleChain ∧ (generateHash sampleBlock).Hash.length = 64 ∧
      ∀ (i : Nat) (blk : Block), sampleChain.blocks[i]? = some blk →
        (blk.PrevHash = "" ↔ i = 0) :=
  ⟨⟨1, sampleChain_reachableIn⟩,
    (generateHash_hex64 sampleBlock sampleChain ⟨1, sampleChain_reachableIn⟩).1.1,
    (generateHash_hex64 sampleBlock sampleChain ⟨1, sampleChain_reachableIn⟩).2⟩

/-! ## What validation writes -/

theorem validBlock_snd (block prevBlock : Block) :
    (validBlock block prevBlock).2 =
      if prevBlock.Hash = block.PrevHash then generateHash block else block := by
  unfold validBlock validateHash
  by_cases h1 : prevBlock.Hash = block.PrevHash
  · by_cases h2 : (generateHash block).Hash = block.Hash
    · by_cases h3 : wrapInt (prevBlock.Pos + 1) = (generateHash block).Pos
      · simp [h1, h2, h3]
      · simp [h1, h2, h3]
    · simp [h1, h2]
  · simp [h1]

/-- C17, as stated, fails: the sample block with its stored hash replaced by
"tampered" is rejected by `validBlock` against its predecessor, the call
replaces the stored hash by the recomputed one, and a second call on the
same arguments accepts the block. -/
theorem validBlock_repairs_tampered_hash :
    (validBlock tamperedBlock (GenesisBlock sampleTime)).1 = false ∧
      (validBlock tamperedBlock (GenesisBlock sampleTime)).2.Hash ≠ tamperedBlock.Hash ∧
      (validBlock (validBlock tamperedBlock (GenesisBlock sampleTime)).2
        (GenesisBlock sampleTime)).1 = true := by
  have hlink : (GenesisBlock sampleTime).Hash = tamperedBlock.PrevHash := rfl
  have hpos : wrapInt ((GenesisBlock sampleTime).Pos + 1) = tamperedBlock.Pos := rfl
  have hne : (generateHash tamperedBlock).Hash ≠ tamperedBlock.Hash := by
    intro he
    have hl := generateHash_Hash_length tamperedBlock
    rw [he] at hl
    exact absurd hl (by decide)
  have hsnd : (validBlock tamperedBlock (GenesisBlock sampleTime)).2 =
      generateHash tamperedBlock := by
    rw [validBlock_snd, if_pos hlink]
  refine ⟨?_, ?_, ?_⟩
  · rw [validBlock_fst]
    simp [hne]
  · rw [hsnd]
    exact hne
  · rw [hsnd, validBlock_fst]
    have h1 : (GenesisBlock sampleTime).Hash = (generateHash tamperedBlock).PrevHash := hlink
    have h2 : (generateHash (generateHash tamperedBlock)).Hash =
        (generateHash tamperedBlock).Hash :=
      congrArg Block.Hash (generateHash_idem tamperedBlock)
    have h3 : wrapInt ((GenesisBlock sampleTime).Pos + 1) =
        (generateHash tamperedBlock).Pos := hpos
    simp [h1, h2, h3]

/-- C17, amended: validation rewrites only the hash of the candidate.
`validBlock` leaves `Pos`, `Data`, `Timestamp` and `PrevHash` of the candidate
as they were; it leaves `Hash` as it was when the linkage check fails and
otherwise stores the recomputed hash, so the candidate is unchanged whenever
the call returns true or the stored hash was the recomputed one.  A second
call on the candidate as the first call left it returns true exactly when
linkage and contiguity hold; it returns what the first call returned
whenever the first call returned true or the stored hash was the recomputed
one. -/
theorem validBlock_writes_hash_only (block prevBlock : Block) :
    ((validBlock block prevBlock).2.Pos = block.Pos ∧
      (validBlock block prevBlock).2.Data = block.Data ∧
      (validBlock block prevBlock).2.Timestamp = block.Timestamp ∧
      (validBlock block prevBlock).2.PrevHash = block.PrevHash) ∧
    (prevBlock.Hash ≠ block.PrevHash → (validBlock block prevBlock).2 = block) ∧
    (prevBlock.Hash = block.PrevHash →
      (validBlock block prevBlock).2.Hash =
        hexEncodeToString (sha256Sum (utf8Bytes
          (runeString block.Pos ++ block.Timestamp ++ jsonMarshal block.Data ++
            block.PrevHash)))) ∧
    ((validBlock block prevBlock).1 = true → (validBlock block prevBlock).2 = block) ∧
    ((generateHash block).Hash = block.Hash → (validBlock block prevBlock).2 = block) ∧
    ((validBlock (validBlock block prevBlock).2 prevBlock).1 = true ↔
      (prevBlock.Hash = block.PrevHash ∧ wrapInt (prevBlock.Pos + 1) = block.Pos)) ∧
    ((validBlock block prevBlock).1 = true ∨ (generateHash block).Hash = block.Hash →
      (validBlock (validBlock block prevBlock).2 prevBlock).1 =
        (validBlock block prevBlock).1) := by
  have hfix : (generateHash block).Hash = block.Hash → generateHash block = block := by
    intro hg
    cases block
    simp only [generateHash] at hg ⊢
    rw [hg]
  have hsame : (generateHash block).Hash = block.Hash → (validBlock block prevBlock).2 = block := by
    intro hg
    rw [validBlock_snd]
    by_cases h1 : prevBlock.Hash = block.PrevHash
    · rw [if_pos h1]; exact hfix hg
    · rw [if_neg h1]
  have htrue : (validBlock block prevBlock).1 = true → (validBlock block prevBlock).2 = block := by
    intro hv
    rw [validBlock_fst] at hv
    simp only [decide_eq_true_eq] at hv
    exact hsame hv.2.1
  refine ⟨?_, ?_, ?_, htrue, hsame, ?_, ?_⟩
  · rw [validBlock_snd]
    by_cases h1 : prevBlock.Hash = block.PrevHash
    · rw [if_pos h1]; exact ⟨rfl, rfl, rfl, rfl⟩
    · rw [if_neg h1]; exact ⟨rfl, rfl, rfl, rfl⟩
  · intro h1
    rw [validBlock_snd, if_neg h1]
  · intro h1
    rw [validBlock_snd, if_pos h1]
    rfl
  · rw [validBlock_snd]
    by_cases h1 : prevBlock.Hash = block.PrevHash
    · rw [if_pos h1, validBlock_fst]
      have h2 : (generateHash (generateHash block)).Hash = (generateHash block).Hash := rfl
      have h3 : (generateHash block).PrevHash = block.PrevHash := rfl
      have h4 : (generateHash block).Pos = block.Pos := rfl
      simp [h2, h3, h4, h1]
    · rw [if_neg h1, validBlock_fst]
      simp [h1]
  · intro hor
    have hb : (validBlock block prevBlock).2 = block := by
      rcases hor with hv | hg
      · exact htrue hv
      · exact hsame hg
    rw [hb]

/-- Instance of the amended validation property: the sample block, whose
stored hash is the recomputed one, is left unchanged and is judged the same
by a second call. -/
theorem validBlock_writes_hash_only_witness :
    (generateHash sampleBlock).Hash = sampleBlock.Hash ∧
      (validBlock sampleBlock (GenesisBlock sampleTime)).2 = sampleBlock ∧
      (validBlock (validBlock sampleBlock (GenesisBlock sampleTime)).2
          (GenesisBlock sampleTime)).1 =
        (validBlock sampleBlock (GenesisBlock sampleTime)).1 :=
  ⟨rfl,
    (validBlock_writes_hash_only sampleBlock (GenesisBlock sampleTime)).2.2.2.2.1 rfl,
    (validBlock_writes_hash_only sampleBlock (GenesisBlock sampleTime)).2.2.2.2.2.2
      (Or.inr rfl)⟩

/-! ## What the hashed string determines -/

theorem split_at_first {a : Char} :
    ∀ (t1 t2 r1 r2 : List Char), a ∉ t1 → a ∉ t2 →
      t1 ++ a :: r1 = t2 ++ a :: r2 → t1 = t2 ∧ r1 = r2 := by
  intro t1
  induction t1 with
  | nil =>
    intro t2 r1 r2 _ h2 h
    cases t2 with
    | nil =>
      simp only [List.nil_append, List.cons.injEq, true_and] at h
      exact ⟨rfl, h⟩
    | cons x xs =>
      simp only [List.nil_append, List.cons_append, List.cons.injEq] at h
      exact absurd (by rw [h.1]; exact List.mem_cons_self _ _) h2
  | cons y ys ih =>
    intro t2 r1 r2 h1 h2 h
    cases t2 with
    | nil =>
      simp only [List.nil_append, List.cons_append, List.cons.injEq] at h
      exact absurd (by rw [← h.1]; exact List.mem_cons_self _ _) h1
    | cons x xs =>
      simp only [List.cons_append, List.cons.injEq] at h
      have hy : a ∉ ys := fun hm => h1 (List.mem_cons_of_mem _ hm)
      have hx : a ∉ xs := fun hm => h2 (List.mem_cons_of_mem _ hm)
      obtain ⟨e1, e2⟩ := ih xs r1 r2 hy hx h.2
      exact ⟨by rw [h.1, e1], e2⟩

theorem char_ne_of_toNat_ne {c : Char} {k : Nat} (h : c.toNat ≠ (Char.ofNat k).toNat) :
    c ≠ Char.ofNat k := fun e => h (by rw [e])

theorem jsonEscapeChar_length (c : Char) (rest : List Char) :
    (jsonEscapeChar c).length = jsonTokenLength (jsonEscapeChar c ++ rest) := by
  unfold jsonEscapeChar
  simp only []
  split_ifs with h1 h2 h3 h4 h5 h6 h7 h8
  · have hc : c ≠ Char.ofNat 117 := by
      apply char_ne_of_toNat_ne
      have : (Char.ofNat 117).toNat = 117 := by decide
      rw [this]
      omega
    simp [jsonTokenLength, hc]
  · simp [jsonTokenLength]
  · simp [jsonTokenLength]
  · simp [jsonTokenLength]
  · simp [jsonTokenLength]
  · simp [jsonTokenLength]
  · simp [jsonTokenLength]
  · simp [jsonTokenLength]
  · have hc : c ≠ Char.ofNat 92 := by
      apply char_ne_of_toNat_ne
      have : (Char.ofNat 92).toNat = 92 := by decide
      rw [this]
      omega
    cases rest with
    | nil => simp [jsonTokenLength]
    | cons x xs => simp [jsonTokenLength, hc]

theorem jsonEscapeChar_head (c : Char) (rest : List Char) :
    ∃ a l, jsonEscapeChar c ++ rest = a :: l ∧ a ≠ Char.ofNat 34 := by
  unfold jsonEscapeChar
  simp only []
  split_ifs with h1 h2 h3 h4 h5 h6 h7 h8
  all_goals first
    | exact ⟨Char.ofNat 92, _, rfl, by decide⟩
    | skip
  refine ⟨c, rest, rfl, ?_⟩
  apply char_ne_of_toNat_ne
  have : (Char.ofNat 34).toNat = 34 := by decide
  rw [this]
  omega

theorem escaped_split :
    ∀ (s1 s2 r1 r2 : List Char),
      s1.flatMap jsonEscapeChar ++ Char.ofNat 34 :: r1 =
        s2.flatMap jsonEscapeChar ++ Char.ofNat 34 :: r2 →
      s1.flatMap jsonEscapeChar = s2.flatMap jsonEscapeChar ∧ r1 = r2 := by
  intro s1
  induction s1 with
  | nil =>
    intro s2 r1 r2 h
    cases s2 with
    | nil =>
      simp only [List.flatMap_nil, List.nil_append, List.cons.injEq, true_and] at h
      exact ⟨rfl, h⟩
    | cons c t =>
      obtain ⟨a, l, hal, hne⟩ :=
        jsonEscapeChar_head c (t.flatMap jsonEscapeChar ++ Char.ofNat 34 :: r2)
      simp only [List.flatMap_nil, List.nil_append, List.flatMap_cons, List.append_assoc] at h
      rw [hal] at h
      injection h with h1 _
      exact absurd h1.symm hne
  | cons c1 t1 ih =>
    intro s2 r1 r2 h
    cases s2 with
    | nil =>
      obtain ⟨a, l, hal, hne⟩ :=
        jsonEscapeChar_head c1 (t1.flatMap jsonEscapeChar ++ Char.ofNat 34 :: r1)
      simp only [List.flatMap_nil, List.nil_append, List.flatMap_cons, List.append_assoc] at h
      rw [hal] at h
      injection h with h1 _
      exact absurd h1 hne
    | cons c2 t2 =>
      simp only [List.flatMap_cons, List.append_assoc] at h
      have hlen : (jsonEscapeChar c1).length = (jsonEscapeChar c2).length := by
        rw [jsonEscapeChar_length c1 (t1.flatMap jsonEscapeChar ++ Char.ofNat 34 :: r1),
          jsonEscapeChar_length c2 (t2.flatMap jsonEscapeChar ++ Char.ofNat 34 :: r2), h]
      obtain ⟨e1, e2⟩ := List.append_inj h hlen
      obtain ⟨e3, e4⟩ := ih t2 r1 r2 e2
      exact ⟨by simp only [List.flatMap_cons]; rw [e1, e3], e4⟩


theorem jsonMarshal_data_append (d : certificateCheckout) (rest : List Char) :
    (jsonMarshal d).data ++ rest =
      Char.ofNat 123 :: ("\"user\":".data ++ Char.ofNat 34 ::
        (d.User.data.flatMap jsonEscapeChar ++ Char.ofNat 34 ::
          (",\"checkout_date\":".data ++ Char.ofNat 34 ::
            (d.CheckoutDate.data.flatMap jsonEscapeChar ++ Char.ofNat 34 ::
              (",\"is_genesis\":".data ++
                ((if d.IsGenesis then "true" else "false").data ++
                  Char.ofNat 125 :: rest)))))) := by
  simp [jsonMarshal, jsonString, String.data_append]

theorem bool_text_no_brace (g : Bool) :
    Char.ofNat 125 ∉ (if g then "true" else "false" : String).data := by
  cases g <;> decide

theorem hashData_with_Hash (b : Block) (x : String) :
    hashData { b with Hash := x } = hashData b := rfl

/-- C18, as stated, fails: two blocks with the same position and the same
payload, one with the serialized payload as its timestamp and an empty
previous hash, the other with an empty timestamp and the serialized payload
as its previous hash, have the same hashed string, yet different timestamps
and different previous hashes. -/
theorem hashData_shift_collision :
    shiftedBlockA.Pos = shiftedBlockB.Pos ∧
      hashData shiftedBlockA = hashData shiftedBlockB ∧
      shiftedBlockA.Timestamp ≠ shiftedBlockB.Timestamp ∧
      shiftedBlockA.PrevHash ≠ shiftedBlockB.PrevHash ∧
      ¬ (∀ b1 b2 : Block, b1.Pos = b2.Pos → hashData b1 = hashData b2 →
          b1.Timestamp = b2.Timestamp ∧ jsonMarshal b1.Data = jsonMarshal b2.Data ∧
            b1.PrevHash = b2.PrevHash) := by
  have hd : hashData shiftedBlockA = hashData shiftedBlockB := by
    simp [hashData, shiftedBlockA, shiftedBlockB]
  have ht : shiftedBlockA.Timestamp ≠ shiftedBlockB.Timestamp := by decide
  refine ⟨rfl, hd, ht, by decide, ?_⟩
  intro hall
  exact ht (hall shiftedBlockA shiftedBlockB rfl hd).1

/-- C18, amended: for every two blocks with the same position whose timestamps
contain no opening brace (as holds for clock texts), equal hashed strings
imply equal timestamps, equal serialized payloads and equal previous
hashes. -/
theorem hashData_determines_fields (b1 b2 : Block) (hP : b1.Pos = b2.Pos)
    (hT1 : Char.ofNat 123 ∉ b1.Timestamp.data) (hT2 : Char.ofNat 123 ∉ b2.Timestamp.data)
    (h : hashData b1 = hashData b2) :
    b1.Timestamp = b2.Timestamp ∧ jsonMarshal b1.Data = jsonMarshal b2.Data ∧
      b1.PrevHash = b2.PrevHash := by
  have hdata := congrArg String.data h
  simp only [hashData, String.data_append, hP, List.append_assoc] at hdata
  have hrest := List.append_cancel_left hdata
  rw [jsonMarshal_data_append, jsonMarshal_data_append] at hrest
  obtain ⟨eT, e1⟩ := split_at_first _ _ _ _ hT1 hT2 hrest
  have e2 := List.append_cancel_left e1
  injection e2 with _ e2
  obtain ⟨eU, e3⟩ := escaped_split _ _ _ _ e2
  have e4 := List.append_cancel_left e3
  injection e4 with _ e4
  obtain ⟨eC, e5⟩ := escaped_split _ _ _ _ e4
  have e6 := List.append_cancel_left e5
  obtain ⟨eB, eP⟩ := split_at_first _ _ _ _ (bool_text_no_brace _) (bool_text_no_brace _) e6
  refine ⟨String.ext eT, String.ext ?_, String.ext eP⟩
  have j1 := jsonMarshal_data_append b1.Data []
  have j2 := jsonMarshal_data_append b2.Data []
  rw [List.append_nil] at j1 j2
  rw [j1, j2, eU, eC, eB]

/-- Instance of the amended property: the genesis block and the same block
with another stored hash. -/
theorem hashData_determines_fields_witness :
    (GenesisBlock sampleTime).Pos = ({ GenesisBlock sampleTime with Hash := "other" } : Block).Pos ∧
      Char.ofNat 123 ∉ (GenesisBlock sampleTime).Timestamp.data ∧
      hashData (GenesisBlock sampleTime) =
        hashData { GenesisBlock sampleTime with Hash := "other" } ∧
      (GenesisBlock sampleTime).PrevHash =
        ({ GenesisBlock sampleTime with Hash := "other" } : Block).PrevHash :=
  ⟨rfl, (show Char.ofNat 123 ∉ sampleTime.text.data by decide),
    (hashData_with_Hash (GenesisBlock sampleTime) "other").symm,
    (hashData_determines_fields (GenesisBlock sampleTime)
      { GenesisBlock sampleTime with Hash := "other" } rfl
      (show Char.ofNat 123 ∉ sampleTime.text.data by decide)
      (show Char.ofNat 123 ∉ sampleTime.text.data by decide)
      (hashData_with_Hash (GenesisBlock sampleTime) "other").symm).2.2⟩

end Ledger
